import Mathlib

/-!
Verification of the `plugin-c-collection` qualifier plugin
(`src/Examples/QualifierPluginC/Plugins/plugin-c-collection/src/collection_plugin.c`).

Documents are modelled as `List Char` (the bytes of the NUL-terminated C
string, without the terminator).  Each definition in the first part of the
file is a direct translation of the corresponding C function; the second
part contains the spec-level reference definitions (`splitTopLevel` and the
well-formedness grammar) used to state the refinement and correctness
properties, and the third part the theorems.
-/

/-- Convert a string literal to the byte list used throughout. -/
def toL (s : String) : List Char := s.data

/-- Whitespace characters skipped by the plugin (space, tab, newline),
as in `while (*pos == ' ' || *pos == '\t' || *pos == '\n') pos++;`. -/
def isWs (c : Char) : Bool := c = ' ' ∨ c = '\t' ∨ c = '\n'

/-- Model of C `strstr`: returns the suffix of `hay` starting at the first
occurrence of `needle`, or `none` when `needle` does not occur. -/
def strstr (hay needle : List Char) : Option (List Char) :=
  if needle.isPrefixOf hay then some hay
  else
    match hay with
    | [] => none
    | _ :: t => strstr t needle

/-- Model of C `strchr`: the suffix of `s` starting at the first occurrence
of `c`, or `none`. -/
def strchr (s : List Char) (c : Char) : Option (List Char) :=
  match s with
  | [] => none
  | a :: t => if a = c then some (a :: t) else strchr t c

/-- Index form of `strchr`: index of the first occurrence of `c` in `s`. -/
def strchrIdx (s : List Char) (c : Char) : Option Nat :=
  match s with
  | [] => none
  | a :: t => if a = c then some 0 else (strchrIdx t c).map (· + 1)

/-- Translation of `find_json_value`: build the pattern `"key":`, locate it
with `strstr`, advance past the next `:` and skip whitespace.  (The C
256-byte pattern buffer is not modelled; every key used here is short.) -/
def find_json_value (json key : List Char) : Option (List Char) :=
  let search := '"' :: (key ++ ['"', ':'])
  match strstr json search with
  | none => none
  | some pos =>
    match strchr pos ':' with
    | none => none
    | some pos2 => some ((pos2.drop 1).dropWhile isWs)

/-- Translation of `extract_json_string`: requires the located value to
start with `"`; returns the characters strictly before the next `"`
(no escape handling: the C code uses a plain `strchr`). -/
def extract_json_string (json key : List Char) : Option (List Char) :=
  match find_json_value json key with
  | none => none
  | some v =>
    if v.head? ≠ some '"' then none
    else
      let rest := v.drop 1
      match strchrIdx rest '"' with
      | none => none
      | some j => some (rest.take j)

/-- The bracket scan of `extract_json_array`
(`while (*end && depth > 0) { if '[' depth++; else if ']' depth--; end++; }`):
number of characters consumed from the list after the opening `[`, starting
at depth `d`.  Quotes are not tracked. -/
def scanArr : List Char → Int → Nat
  | [], _ => 0
  | c :: cs, d =>
    let d' := if c = '[' then d + 1 else if c = ']' then d - 1 else d
    if d' ≤ 0 then 1 else 1 + scanArr cs d'

/-- Translation of `extract_json_array`: requires the located value to start
with `[`; returns the span through the bracket-balance point, or the whole
remaining input when the brackets never balance (the C loop stops at the
NUL terminator and the span is still returned). -/
def extract_json_array (json key : List Char) : Option (List Char) :=
  match find_json_value json key with
  | none => none
  | some v =>
    if v.head? ≠ some '[' then none
    else some (v.take (1 + scanArr (v.drop 1) 1))

/-- The in-string toggle shared by the forward scanners:
`if (*p == '"' && (p == start || *(p-1) != '\\')) in_string = !in_string;`.
`prev = none` models the pointer standing at the start of the buffer. -/
def qtoggle (prev : Option Char) (ins : Bool) (c : Char) : Bool :=
  if c = '"' ∧ prev ≠ some '\\' then !ins else ins

/-- The loop of `count_array_elements`: walks the whole array text
(including the outer brackets), counting commas seen at depth 1 outside
strings.  The C condition also admits the second character of the array
when it is not `]`, but its body only increments on a comma, so that
disjunct is count-neutral and the loop reduces to counting depth-1
commas. -/
def countLoop : List Char → Option Char → Int → Bool → Nat → Nat
  | [], _, _, _, cnt => cnt
  | c :: cs, prev, depth, ins, cnt =>
    let ins' := qtoggle prev ins c
    if ins' = true then countLoop cs (some c) depth ins' cnt
    else if c = '[' ∨ c = '{' then countLoop cs (some c) (depth + 1) ins' cnt
    else if c = ']' ∨ c = '}' then countLoop cs (some c) (depth - 1) ins' cnt
    else if depth = 1 ∧ c = ',' then countLoop cs (some c) depth ins' (cnt + 1)
    else countLoop cs (some c) depth ins' cnt

/-- Translation of `count_array_elements`.  `none` models a NULL pointer.
After the loop the count is incremented when `strlen(array_str) > 2`. -/
def count_array_elements : Option (List Char) → Nat
  | none => 0
  | some a =>
    if a.head? ≠ some '[' then 0
    else
      let cnt := countLoop a none 0 false 0
      if 2 < a.length then cnt + 1 else cnt

/-- The forward element scan of the `first` branch: number of characters
belonging to the first element (scan stops before a depth-0 `,`, `]` or
`}` outside strings). -/
def firstScan : List Char → Option Char → Int → Bool → Nat
  | [], _, _, _ => 0
  | c :: cs, prev, depth, ins =>
    let ins' := qtoggle prev ins c
    if ins' = true then 1 + firstScan cs (some c) depth ins'
    else if c = '[' ∨ c = '{' then 1 + firstScan cs (some c) (depth + 1) ins'
    else if c = ']' ∨ c = '}' then
      if depth = 0 then 0 else 1 + firstScan cs (some c) (depth - 1) ins'
    else if c = ',' ∧ depth = 0 then 0
    else 1 + firstScan cs (some c) depth ins'

/-- First element of the `first` branch: skip the `[` and leading
whitespace, then take the scanned span. -/
def firstElem (a : List Char) : List Char :=
  let rest := (a.drop 1).dropWhile isWs
  rest.take (firstScan rest none 0 false)

/-- The `end` pointer scan of the `last` branch:
`while (end > array_str && (*end == ']' || ws)) end--;`.
Walks down from index `i`; returns the index where the loop stops. -/
def lastEnd (a : List Char) : Nat → Nat
  | 0 => 0
  | i + 1 =>
    if a.getD (i + 1) ' ' = ']' ∨ isWs (a.getD (i + 1) ' ') then lastEnd a i
    else i + 1

/-- The backward scan of the `last` branch, walking `start` down from
index `i` (`while (start > array_str) ...`).  Returns the index where the
scan stops; on a depth-0 comma the C code does `start++; break;`.  The
quote test reads the character before the current one
(`*start == '"' && *(start-1) != '\\'`). -/
def lastStart (a : List Char) : Nat → Int → Bool → Nat
  | 0, _, _ => 0
  | i + 1, depth, ins =>
    let c := a.getD (i + 1) ' '
    let ins' := if c = '"' ∧ a.getD i ' ' ≠ '\\' then !ins else ins
    if ins' = true then lastStart a i depth ins'
    else if c = ']' ∨ c = '}' then lastStart a i (depth + 1) ins'
    else if c = '[' ∨ c = '{' then
      if depth = 0 then i + 1 else lastStart a i (depth - 1) ins'
    else if c = ',' ∧ depth = 0 then i + 2
    else lastStart a i depth ins'

/-- Last element of the `last` branch: find the exclusive end index, walk
backwards to the element start, adjust past a `[`, skip whitespace, slice. -/
def lastElem (a : List Char) : List Char :=
  let e := lastEnd a (a.length - 1) + 1
  let s0 := lastStart a (e - 1) 0 false
  let s1 := if a.getD s0 ' ' = '[' then s0 + 1 else s0
  let s2 := s1 + ((a.drop s1).takeWhile isWs).length
  (a.drop s2).take (e - s2)

/-- Decimal rendering used for `%d` / `%zu` (the counts are nonnegative). -/
def natChars (n : Nat) : List Char := (Nat.repr n).data

/-- Model of `snprintf(result, 4096, ...)`: the formatted text is truncated
to 4095 bytes (one byte is reserved for the NUL terminator). -/
def snprintf4096 (l : List Char) : List Char := l.take 4095

/-- The process-wide state touched by `init_random` (`random_initialized`
and the seed passed to `srand`). -/
structure PluginState where
  random_initialized : Bool
  seed : Nat
  deriving DecidableEq

/-- Translation of `init_random`; `now` models `time(NULL)`. -/
def init_random (now : Nat) (st : PluginState) : PluginState :=
  if st.random_initialized then st else { random_initialized := true, seed := now }

/-- The dispatch body of `aro_plugin_qualifier`: the textual result
document built for one call.  (The C code stores
`extract_json_string(input_json, "type")` in the local `type`; the pure
call is inlined here at its two use sites.) -/
def aroOutput (qualifier input_json : List Char) : List Char :=
  if qualifier = toL "first" then
    match extract_json_array input_json (toL "value") with
    | none => snprintf4096 (toL "\x7b\"error\":\"first requires a non-empty list\"\x7d")
    | some a =>
      if a.length ≤ 2 then
        snprintf4096 (toL "\x7b\"error\":\"first requires a non-empty list\"\x7d")
      else snprintf4096 (toL "\x7b\"result\":" ++ firstElem a ++ toL "\x7d")
  else if qualifier = toL "last" then
    match extract_json_array input_json (toL "value") with
    | none => snprintf4096 (toL "\x7b\"error\":\"last requires a non-empty list\"\x7d")
    | some a =>
      if a.length ≤ 2 then
        snprintf4096 (toL "\x7b\"error\":\"last requires a non-empty list\"\x7d")
      else snprintf4096 (toL "\x7b\"result\":" ++ lastElem a ++ toL "\x7d")
  else if qualifier = toL "size" then
    if extract_json_string input_json (toL "type") = some (toL "List") then
      snprintf4096 (toL "\x7b\"result\":" ++
        natChars (count_array_elements (extract_json_array input_json (toL "value"))) ++
        toL "\x7d")
    else if extract_json_string input_json (toL "type") = some (toL "String") then
      snprintf4096 (toL "\x7b\"result\":" ++
        natChars (match extract_json_string input_json (toL "value") with
          | some s => s.length
          | none => 0) ++
        toL "\x7d")
    else snprintf4096 (toL "\x7b\"error\":\"size requires List or String\"\x7d")
  else
    snprintf4096 (toL "\x7b\"error\":\"Unknown qualifier: " ++ qualifier ++ toL "\"\x7d")

/-- Translation of `aro_plugin_qualifier`: performs the one-time random
seeding (which no branch of the dispatch reads) and returns the result
document together with the updated process state.  (Allocation failure of
the 4096-byte result buffer is not modelled.) -/
def aro_plugin_qualifier (now : Nat) (st : PluginState) (qualifier input_json : List Char) :
    List Char × PluginState :=
  (aroOutput qualifier input_json, init_random now st)

/-- One evaluator call as observed by the host: the returned document. -/
def evalQualifier (qualifier input_json : List Char) : List Char :=
  (aro_plugin_qualifier 0 ⟨false, 0⟩ qualifier input_json).1

/-! ## Spec-level reference definitions

`splitTopLevel` below follows the words of spec §4.2 (walk the interior of
the array span, maintaining bracket/brace depth and in-string state as in
§4.1, splitting at depth-0 commas, trimming whitespace, empty array gives
the empty sequence).  It is the reference against which the plugin's
`first`/`last`/`count` scans are compared. -/

/-- Trim leading and trailing whitespace from an element span (spec §4.2:
"leading/trailing whitespace around each element is trimmed"). -/
def trimWs (l : List Char) : List Char :=
  ((l.dropWhile isWs).reverse.dropWhile isWs).reverse

/-- The element accumulation loop of `splitTopLevel`: `cur` holds the
current element reversed; a comma at depth 0 outside strings closes the
current element. -/
def splitLoop : List Char → Option Char → Int → Bool → List Char → List (List Char)
  | [], _, _, _, cur => [cur.reverse]
  | c :: cs, prev, depth, ins, cur =>
    let ins' := qtoggle prev ins c
    if ins' = false ∧ c = ',' ∧ depth = 0 then
      cur.reverse :: splitLoop cs (some c) depth ins' []
    else if ins' = false ∧ (c = '[' ∨ c = '{') then
      splitLoop cs (some c) (depth + 1) ins' (c :: cur)
    else if ins' = false ∧ (c = ']' ∨ c = '}') then
      splitLoop cs (some c) (depth - 1) ins' (c :: cur)
    else splitLoop cs (some c) depth ins' (c :: cur)

/-- Reference splitter, following spec §4.2: interior of the span between
the outer brackets; a whitespace-only interior yields the empty sequence;
otherwise split at depth-0 commas outside strings and trim each element. -/
def splitTopLevel (s : List Char) : List (List Char) :=
  let interior := (s.drop 1).dropLast
  if interior.all isWs then []
  else (splitLoop interior none 0 false []).map trimWs

/-- The last character of `l`, or `p` when `l` is empty: the value of the
scanners' `prev` pointer after walking `l`. -/
def lastO (p : Option Char) (l : List Char) : Option Char :=
  l.foldl (fun _ c => some c) p

/-! ## Well-formedness grammar

`OkB` describes quoted-string bodies on which the plugin's single-character
escape test (`*(p-1) != '\\'`) agrees with real JSON escaping: ordinary
characters and two-character escapes whose escaped character is not a
backslash.  `WfSeq cm s` describes a well-bracketed, well-quoted character
sequence; `cm` tells whether commas may occur at the top level of `s`
(they may inside brackets, not inside a single element). -/

/-- Well-formed quoted-string body: plain characters (not `"` or `\`) and
escapes `\c` with `c ≠ \`. -/
inductive OkB : List Char → Prop
  | nil : OkB []
  | plain (c : Char) (s : List Char) : c ≠ '"' → c ≠ '\\' → OkB s → OkB (c :: s)
  | esc (c : Char) (s : List Char) : c ≠ '\\' → OkB s → OkB ('\\' :: c :: s)

/-- A character that may appear bare in a sequence: not a bracket, brace,
quote or backslash, and a comma only where commas are allowed. -/
def plainOk (cm : Bool) (c : Char) : Prop :=
  c ≠ '[' ∧ c ≠ ']' ∧ c ≠ '{' ∧ c ≠ '}' ∧ c ≠ '"' ∧ c ≠ '\\' ∧ (c = ',' → cm = true)

instance (cm : Bool) (c : Char) : Decidable (plainOk cm c) := by
  unfold plainOk; infer_instance

/-- Well-bracketed, well-quoted sequences.  `WfSeq false e` is a single
well-formed element (no top-level commas); `WfSeq true t` is bracket content
(top-level commas allowed). -/
inductive WfSeq : Bool → List Char → Prop
  | nil {cm} : WfSeq cm []
  | ch {cm} (c : Char) (s : List Char) : plainOk cm c → WfSeq cm s → WfSeq cm (c :: s)
  | str {cm} (b s : List Char) : OkB b → WfSeq cm s → WfSeq cm ('"' :: (b ++ '"' :: s))
  | arr {cm} (t s : List Char) : WfSeq true t → WfSeq cm s → WfSeq cm ('[' :: (t ++ ']' :: s))
  | obj {cm} (t s : List Char) : WfSeq true t → WfSeq cm s → WfSeq cm ('{' :: (t ++ '}' :: s))

/-- Join element texts with comma separators (the interior of a rendered
array literal). -/
def interComma : List (List Char) → List Char
  | [] => []
  | [e] => e
  | e :: rest => e ++ ',' :: interComma rest

/-- Render an array literal from its element texts. -/
def renderArr (elems : List (List Char)) : List Char :=
  '[' :: (interComma elems ++ [']'])

/-! ## Scan lemmas -/

theorem lastO_nil (p : Option Char) : lastO p [] = p := rfl

theorem lastO_cons (p : Option Char) (c : Char) (l : List Char) :
    lastO p (c :: l) = lastO (some c) l := rfl

theorem lastO_append (p : Option Char) (a b : List Char) :
    lastO p (a ++ b) = lastO (lastO p a) b := by
  simp [lastO, List.foldl_append]

theorem okB_splitLoop {b : List Char} (hb : OkB b) :
    ∀ (cs cur : List Char) (p : Option Char) (d : Int), p ≠ some '\\' →
      splitLoop (b ++ cs) p d true cur
        = splitLoop cs (lastO p b) d true (b.reverse ++ cur)
      ∧ lastO p b ≠ some '\\' := by
  induction hb with
  | nil => intro cs cur p d hp; simpa [lastO] using hp
  | plain c s hq hbs ihs ih =>
      intro cs cur p d hp
      have h1 : splitLoop ((c :: s) ++ cs) p d true cur
          = splitLoop (s ++ cs) (some c) d true (c :: cur) := by
        simp [splitLoop, qtoggle, hq]
      have h2 := ih cs (c :: cur) (some c) d (by simp [hbs])
      refine ⟨?_, ?_⟩
      · rw [h1, h2.1, lastO_cons]
        simp [List.append_assoc]
      · rw [lastO_cons]; exact h2.2
  | esc c s hc ihs ih =>
      intro cs cur p d hp
      have h1 : splitLoop (('\\' :: c :: s) ++ cs) p d true cur
          = splitLoop (s ++ cs) (some c) d true (c :: '\\' :: cur) := by
        simp [splitLoop, qtoggle]
      have h2 := ih cs (c :: '\\' :: cur) (some c) d (by simp [hc])
      refine ⟨?_, ?_⟩
      · rw [h1, h2.1, lastO_cons, lastO_cons]
        simp [List.append_assoc]
      · rw [lastO_cons, lastO_cons]; exact h2.2

theorem wfSeq_splitLoop {cm : Bool} {s : List Char} (h : WfSeq cm s) :
    ∀ (cs cur : List Char) (p : Option Char) (d : Int), p ≠ some '\\' →
      0 ≤ d → (cm = true → 1 ≤ d) →
      splitLoop (s ++ cs) p d false cur
        = splitLoop cs (lastO p s) d false (s.reverse ++ cur)
      ∧ lastO p s ≠ some '\\' := by
  induction h with
  | nil => intro cs cur p d hp hd hcm; simpa [lastO] using hp
  | ch c s hOk hs ih =>
      intro cs cur p d hp hd hcm
      obtain ⟨hob, hcb, hoc, hcc, hq, hbs, hcomma⟩ := hOk
      have hfire : ¬(qtoggle p false c = false ∧ c = ',' ∧ d = 0) := by
        rintro ⟨-, hc, hd0⟩
        have := hcm (hcomma hc)
        omega
      have h1 : splitLoop ((c :: s) ++ cs) p d false cur
          = splitLoop (s ++ cs) (some c) d false (c :: cur) := by
        simp only [List.cons_append, splitLoop]
        rw [if_neg hfire, if_neg (by simp [hob, hoc]), if_neg (by simp [hcb, hcc])]
        simp [qtoggle, hq]
      have h2 := ih cs (c :: cur) (some c) d (by simp [hbs]) hd hcm
      refine ⟨?_, ?_⟩
      · rw [h1, h2.1, lastO_cons]; simp [List.append_assoc]
      · rw [lastO_cons]; exact h2.2
  | str b s hb hs ih =>
      intro cs cur p d hp hd hcm
      have h1 : splitLoop (('"' :: (b ++ '"' :: s)) ++ cs) p d false cur
          = splitLoop (b ++ '"' :: (s ++ cs)) (some '"') d true ('"' :: cur) := by
        simp only [List.cons_append, List.append_assoc, splitLoop]
        simp [qtoggle, hp]
      have h2 := okB_splitLoop hb ('"' :: (s ++ cs)) ('"' :: cur) (some '"') d (by simp)
      have h3 : splitLoop ('"' :: (s ++ cs)) (lastO (some '"') b) d true
            (b.reverse ++ '"' :: cur)
          = splitLoop (s ++ cs) (some '"') d false ('"' :: (b.reverse ++ '"' :: cur)) := by
        simp only [splitLoop]
        simp [qtoggle, h2.2]
      have h4 := ih cs ('"' :: (b.reverse ++ '"' :: cur)) (some '"') d (by simp) hd hcm
      refine ⟨?_, ?_⟩
      · rw [h1, h2.1, h3, h4.1, lastO_cons, lastO_append, lastO_cons]
        simp [List.append_assoc]
      · rw [lastO_cons, lastO_append, lastO_cons]; exact h4.2
  | arr t s ht hs iht ihs =>
      intro cs cur p d hp hd hcm
      have h1 : splitLoop (('[' :: (t ++ ']' :: s)) ++ cs) p d false cur
          = splitLoop (t ++ ']' :: (s ++ cs)) (some '[') (d + 1) false ('[' :: cur) := by
        simp only [List.cons_append, List.append_assoc, splitLoop]
        simp [qtoggle]
      have h2 := iht (']' :: (s ++ cs)) ('[' :: cur) (some '[') (d + 1) (by simp)
        (by omega) (fun _ => by omega)
      have h3 : splitLoop (']' :: (s ++ cs)) (lastO (some '[') t) (d + 1) false
            (t.reverse ++ '[' :: cur)
          = splitLoop (s ++ cs) (some ']') d false (']' :: (t.reverse ++ '[' :: cur)) := by
        simp only [splitLoop]
        simp [qtoggle, add_sub_cancel_right]
      have h4 := ihs cs (']' :: (t.reverse ++ '[' :: cur)) (some ']') d (by simp) hd hcm
      refine ⟨?_, ?_⟩
      · rw [h1, h2.1, h3, h4.1, lastO_cons, lastO_append, lastO_cons]
        simp [List.append_assoc]
      · rw [lastO_cons, lastO_append, lastO_cons]; exact h4.2
  | obj t s ht hs iht ihs =>
      intro cs cur p d hp hd hcm
      have h1 : splitLoop (('{' :: (t ++ '}' :: s)) ++ cs) p d false cur
          = splitLoop (t ++ '}' :: (s ++ cs)) (some '{') (d + 1) false ('{' :: cur) := by
        simp only [List.cons_append, List.append_assoc, splitLoop]
        simp [qtoggle]
      have h2 := iht ('}' :: (s ++ cs)) ('{' :: cur) (some '{') (d + 1) (by simp)
        (by omega) (fun _ => by omega)
      have h3 : splitLoop ('}' :: (s ++ cs)) (lastO (some '{') t) (d + 1) false
            (t.reverse ++ '{' :: cur)
          = splitLoop (s ++ cs) (some '}') d false ('}' :: (t.reverse ++ '{' :: cur)) := by
        simp only [splitLoop]
        simp [qtoggle, add_sub_cancel_right]
      have h4 := ihs cs ('}' :: (t.reverse ++ '{' :: cur)) (some '}') d (by simp) hd hcm
      refine ⟨?_, ?_⟩
      · rw [h1, h2.1, h3, h4.1, lastO_cons, lastO_append, lastO_cons]
        simp [List.append_assoc]
      · rw [lastO_cons, lastO_append, lastO_cons]; exact h4.2

theorem interComma_splitLoop :
    ∀ (elems : List (List Char)), elems ≠ [] → (∀ e ∈ elems, WfSeq false e) →
      ∀ (p : Option Char), p ≠ some '\\' →
        splitLoop (interComma elems) p 0 false [] = elems
  | [], hne, _, _, _ => absurd rfl hne
  | [e], _, h, p, hp => by
      have h1 := wfSeq_splitLoop (h e (by simp)) [] [] p 0 hp le_rfl (by simp)
      have : interComma [e] = e ++ [] := by simp [interComma]
      rw [this, h1.1]
      simp [splitLoop]
  | e :: e' :: rest, _, h, p, hp => by
      have h1 := wfSeq_splitLoop (h e (by simp)) (',' :: interComma (e' :: rest)) [] p 0 hp
        le_rfl (by simp)
      have hstep : splitLoop (',' :: interComma (e' :: rest)) (lastO p e) 0 false
            (e.reverse ++ [])
          = e :: splitLoop (interComma (e' :: rest)) (some ',') 0 false [] := by
        simp only [splitLoop]
        simp [qtoggle]
      have ih := interComma_splitLoop (e' :: rest) (by simp) (fun x hx => h x (by simp [hx]))
        (some ',') (by simp)
      have : interComma (e :: e' :: rest) = e ++ ',' :: interComma (e' :: rest) := by
        simp [interComma]
      rw [this, h1.1, hstep, ih]

theorem splitTopLevel_renderArr (elems : List (List Char)) (hne : elems ≠ [])
    (h : ∀ e ∈ elems, WfSeq false e) (hws : ∀ e ∈ elems, e.all isWs = false) :
    splitTopLevel (renderArr elems) = elems.map trimWs := by
  have hint : ((renderArr elems).drop 1).dropLast = interComma elems := by
    simp [renderArr]
  have hnws : (interComma elems).all isWs = false := by
    match elems, hne with
    | [e], _ => simpa [interComma] using hws e (by simp)
    | e :: e' :: rest, _ =>
        have : interComma (e :: e' :: rest) = e ++ ',' :: interComma (e' :: rest) := by
          simp [interComma]
        rw [this]
        simp [List.all_append, hws e (by simp)]
  rw [splitTopLevel, hint, hnws]
  simp [interComma_splitLoop elems hne h none (by simp)]

theorem okB_countLoop {b : List Char} (hb : OkB b) :
    ∀ (cs : List Char) (p : Option Char) (d : Int) (cnt : Nat), p ≠ some '\\' →
      countLoop (b ++ cs) p d true cnt = countLoop cs (lastO p b) d true cnt
      ∧ lastO p b ≠ some '\\' := by
  induction hb with
  | nil => intro cs p d cnt hp; simpa [lastO] using hp
  | plain c s hq hbs ihs ih =>
      intro cs p d cnt hp
      have h1 : countLoop ((c :: s) ++ cs) p d true cnt
          = countLoop (s ++ cs) (some c) d true cnt := by
        simp [countLoop, qtoggle, hq]
      have h2 := ih cs (some c) d cnt (by simp [hbs])
      exact ⟨by rw [h1, h2.1, lastO_cons], by rw [lastO_cons]; exact h2.2⟩
  | esc c s hc ihs ih =>
      intro cs p d cnt hp
      have h1 : countLoop (('\\' :: c :: s) ++ cs) p d true cnt
          = countLoop (s ++ cs) (some c) d true cnt := by
        simp [countLoop, qtoggle]
      have h2 := ih cs (some c) d cnt (by simp [hc])
      exact ⟨by rw [h1, h2.1, lastO_cons, lastO_cons],
        by rw [lastO_cons, lastO_cons]; exact h2.2⟩

theorem wfSeq_countLoop {cm : Bool} {s : List Char} (h : WfSeq cm s) :
    ∀ (cs : List Char) (p : Option Char) (d : Int) (cnt : Nat), p ≠ some '\\' →
      1 ≤ d → (cm = true → 2 ≤ d) →
      countLoop (s ++ cs) p d false cnt = countLoop cs (lastO p s) d false cnt
      ∧ lastO p s ≠ some '\\' := by
  induction h with
  | nil => intro cs p d cnt hp hd hcm; simpa [lastO] using hp
  | ch c s hOk hs ih =>
      intro cs p d cnt hp hd hcm
      obtain ⟨hob, hcb, hoc, hcc, hq, hbs, hcomma⟩ := hOk
      have hfire : ¬(d = 1 ∧ c = ',') := by
        rintro ⟨hd1, hc⟩
        have := hcm (hcomma hc)
        omega
      have h1 : countLoop ((c :: s) ++ cs) p d false cnt
          = countLoop (s ++ cs) (some c) d false cnt := by
        simp only [List.cons_append, countLoop]
        rw [if_neg (by simp [qtoggle, hq]), if_neg (by simp [hob, hoc]),
          if_neg (by simp [hcb, hcc]), if_neg hfire]
        simp [qtoggle, hq]
      have h2 := ih cs (some c) d cnt (by simp [hbs]) hd hcm
      exact ⟨by rw [h1, h2.1, lastO_cons], by rw [lastO_cons]; exact h2.2⟩
  | str b s hb hs ih =>
      intro cs p d cnt hp hd hcm
      have h1 : countLoop (('"' :: (b ++ '"' :: s)) ++ cs) p d false cnt
          = countLoop (b ++ '"' :: (s ++ cs)) (some '"') d true cnt := by
        simp only [List.cons_append, List.append_assoc, countLoop]
        simp [qtoggle, hp]
      have h2 := okB_countLoop hb ('"' :: (s ++ cs)) (some '"') d cnt (by simp)
      have h3 : countLoop ('"' :: (s ++ cs)) (lastO (some '"') b) d true cnt
          = countLoop (s ++ cs) (some '"') d false cnt := by
        simp only [countLoop]
        simp [qtoggle, h2.2]
      have h4 := ih cs (some '"') d cnt (by simp) hd hcm
      refine ⟨?_, ?_⟩
      · rw [h1, h2.1, h3, h4.1, lastO_cons, lastO_append, lastO_cons]
      · rw [lastO_cons, lastO_append, lastO_cons]; exact h4.2
  | arr t s ht hs iht ihs =>
      intro cs p d cnt hp hd hcm
      have h1 : countLoop (('[' :: (t ++ ']' :: s)) ++ cs) p d false cnt
          = countLoop (t ++ ']' :: (s ++ cs)) (some '[') (d + 1) false cnt := by
        simp only [List.cons_append, List.append_assoc, countLoop]
        simp [qtoggle]
      have h2 := iht (']' :: (s ++ cs)) (some '[') (d + 1) cnt (by simp)
        (by omega) (fun _ => by omega)
      have h3 : countLoop (']' :: (s ++ cs)) (lastO (some '[') t) (d + 1) false cnt
          = countLoop (s ++ cs) (some ']') d false cnt := by
        simp only [countLoop]
        simp [qtoggle, add_sub_cancel_right]
      have h4 := ihs cs (some ']') d cnt (by simp) hd hcm
      refine ⟨?_, ?_⟩
      · rw [h1, h2.1, h3, h4.1, lastO_cons, lastO_append, lastO_cons]
      · rw [lastO_cons, lastO_append, lastO_cons]; exact h4.2
  | obj t s ht hs iht ihs =>
      intro cs p d cnt hp hd hcm
      have h1 : countLoop (('{' :: (t ++ '}' :: s)) ++ cs) p d false cnt
          = countLoop (t ++ '}' :: (s ++ cs)) (some '{') (d + 1) false cnt := by
        simp only [List.cons_append, List.append_assoc, countLoop]
        simp [qtoggle]
      have h2 := iht ('}' :: (s ++ cs)) (some '{') (d + 1) cnt (by simp)
        (by omega) (fun _ => by omega)
      have h3 : countLoop ('}' :: (s ++ cs)) (lastO (some '{') t) (d + 1) false cnt
          = countLoop (s ++ cs) (some '}') d false cnt := by
        simp only [countLoop]
        simp [qtoggle, add_sub_cancel_right]
      have h4 := ihs cs (some '}') d cnt (by simp) hd hcm
      refine ⟨?_, ?_⟩
      · rw [h1, h2.1, h3, h4.1, lastO_cons, lastO_append, lastO_cons]
      · rw [lastO_cons, lastO_append, lastO_cons]; exact h4.2

theorem interComma_countLoop :
    ∀ (elems : List (List Char)), elems ≠ [] → (∀ e ∈ elems, WfSeq false e) →
      ∀ (cs : List Char) (p : Option Char) (cnt : Nat), p ≠ some '\\' →
        countLoop (interComma elems ++ cs) p 1 false cnt
          = countLoop cs (lastO p (interComma elems)) 1 false (cnt + (elems.length - 1))
  | [], hne, _, _, _, _, _ => absurd rfl hne
  | [e], _, h, cs, p, cnt, hp => by
      have h1 := wfSeq_countLoop (h e (by simp)) cs p 1 cnt hp le_rfl (by simp)
      simpa [interComma] using h1.1
  | e :: e' :: rest, _, h, cs, p, cnt, hp => by
      have heq : interComma (e :: e' :: rest) = e ++ ',' :: interComma (e' :: rest) := by
        simp [interComma]
      have h1 := wfSeq_countLoop (h e (by simp)) (',' :: (interComma (e' :: rest) ++ cs)) p 1
        cnt hp le_rfl (by simp)
      have hstep : countLoop (',' :: (interComma (e' :: rest) ++ cs)) (lastO p e) 1 false cnt
          = countLoop (interComma (e' :: rest) ++ cs) (some ',') 1 false (cnt + 1) := by
        simp only [countLoop]
        simp [qtoggle]
      have ih := interComma_countLoop (e' :: rest) (by simp)
        (fun x hx => h x (by simp [hx])) cs (some ',') (cnt + 1) (by simp)
      rw [heq, List.append_assoc, List.cons_append, h1.1, hstep, ih]
      have hlast : lastO p (e ++ ',' :: interComma (e' :: rest))
          = lastO (some ',') (interComma (e' :: rest)) := by
        rw [lastO_append, lastO_cons]
      rw [hlast]
      congr 1
      simp [List.length_cons]
      omega

theorem count_renderArr (elems : List (List Char)) (hne : elems ≠ [])
    (h : ∀ e ∈ elems, WfSeq false e) (hws : ∀ e ∈ elems, e.all isWs = false) :
    count_array_elements (some (renderArr elems)) = elems.length := by
  have hic : interComma elems ≠ [] := by
    match elems, hne with
    | [e], _ =>
        have : e ≠ [] := by
          intro he
          have := hws e (by simp)
          simp [he] at this
        simpa [interComma] using this
    | e :: e' :: rest, _ =>
        have : interComma (e :: e' :: rest) = e ++ ',' :: interComma (e' :: rest) := by
          simp [interComma]
        rw [this]
        simp
  have hloop : countLoop (renderArr elems) none 0 false 0 = elems.length - 1 := by
    have hopen : countLoop (renderArr elems) none 0 false 0
        = countLoop (interComma elems ++ [']']) (some '[') 1 false 0 := by
      simp only [renderArr, countLoop]
      simp [qtoggle]
    have hmid := interComma_countLoop elems hne h [']'] (some '[') 0 (by simp)
    have hclose : countLoop [']'] (lastO (some '[') (interComma elems)) 1 false
        (0 + (elems.length - 1)) = elems.length - 1 := by
      simp only [countLoop]
      simp [qtoggle]
    rw [hopen, hmid, hclose]
  have hlen : 2 < (renderArr elems).length := by
    have : 1 ≤ (interComma elems).length := by
      cases hi : interComma elems with
      | nil => exact absurd hi hic
      | cons a l => simp
    simp [renderArr]
    omega
  have hpos : 1 ≤ elems.length := by
    cases elems with
    | nil => exact absurd rfl hne
    | cons a l => simp
  simp only [count_array_elements]
  rw [if_neg (by simp [renderArr]), if_pos hlen, hloop]
  omega

/-- Signed bracket count of a prefix: number of `[` minus number of `]`,
counting every bracket (quotes are irrelevant to `extract_json_array`). -/
def bdiff (l : List Char) : Int := (l.count '[' : Int) - l.count ']'

theorem bdiff_cons (c : Char) (l : List Char) :
    bdiff (c :: l)
      = (if c = '[' then (1 : Int) else if c = ']' then (-1 : Int) else 0) + bdiff l := by
  rcases eq_or_ne c '[' with h1 | h1
  · subst h1; simp [bdiff, List.count_cons]; ring
  · rcases eq_or_ne c ']' with h2 | h2
    · subst h2; simp [bdiff, List.count_cons]; ring
    · simp [bdiff, List.count_cons, h1, h2, Ne.symm h1, Ne.symm h2]

theorem scanArr_spec : ∀ (t : List Char) (d : Int), 0 < d →
    scanArr t d ≤ t.length ∧
    (∀ j, j < scanArr t d → 0 < d + bdiff (t.take j)) ∧
    (d + bdiff (t.take (scanArr t d)) = 0 ∨ scanArr t d = t.length)
  | [], d, _ => by
      simp [scanArr]
  | c :: cs, d, hd => by
      have hstep : (if c = '[' then d + 1 else if c = ']' then d - 1 else d)
          = d + (if c = '[' then (1 : Int) else if c = ']' then (-1 : Int) else 0) := by
        split_ifs <;> ring
      have htake1 : bdiff (List.take 1 (c :: cs))
          = (if c = '[' then (1 : Int) else if c = ']' then (-1 : Int) else 0) := by
        rw [List.take_succ_cons, List.take_zero, bdiff_cons]
        simp [bdiff]
      by_cases hz : (if c = '[' then d + 1 else if c = ']' then d - 1 else d) ≤ 0
      · have hzero : d + (if c = '[' then (1 : Int) else if c = ']' then (-1 : Int) else 0)
            = 0 := by
          rw [hstep] at hz
          split_ifs at hz ⊢ <;> omega
        have hone : scanArr (c :: cs) d = 1 := by
          simp only [scanArr]
          rw [if_pos hz]
        refine ⟨by simp [hone], ?_, ?_⟩
        · intro j hj
          have hj0 : j = 0 := by omega
          subst hj0
          simpa [bdiff] using hd
        · left
          rw [hone, htake1]
          exact hzero
      · have hpos : 0 < d + (if c = '[' then (1 : Int) else if c = ']' then (-1 : Int) else 0) := by
          rw [hstep] at hz
          omega
        have hrec : scanArr (c :: cs) d
            = scanArr cs (d + (if c = '[' then (1 : Int) else if c = ']' then (-1 : Int) else 0)) + 1 := by
          simp only [scanArr]
          rw [if_neg hz, hstep, add_comm]
        obtain ⟨ih1, ih2, ih3⟩ := scanArr_spec cs _ hpos
        refine ⟨?_, ?_, ?_⟩
        · rw [hrec]
          simp only [List.length_cons]
          omega
        · intro j hj
          match j with
          | 0 => simpa [bdiff] using hd
          | j + 1 =>
              rw [hrec] at hj
              have := ih2 j (by omega)
              rw [List.take_succ_cons, bdiff_cons]
              omega
        · rw [hrec]
          rcases ih3 with h0 | hlenr
          · left
            rw [List.take_succ_cons, bdiff_cons]
            omega
          · right
            simp only [List.length_cons, hlenr]

theorem strchrIdx_none : ∀ (s : List Char) (c : Char),
    strchrIdx s c = none → ∀ x ∈ s, x ≠ c
  | [], _, _, x, hx => by simp at hx
  | a :: t, c, hn, x, hx => by
      by_cases h : a = c
      · simp [strchrIdx, h] at hn
      · simp only [strchrIdx, if_neg h, Option.map_eq_none'] at hn
        rcases List.mem_cons.mp hx with hxa | hxt
        · simpa [hxa] using h
        · exact strchrIdx_none t c hn x hxt

theorem strchrIdx_some : ∀ (s : List Char) (c : Char) (j : Nat),
    strchrIdx s c = some j →
      j < s.length ∧ s[j]? = some c ∧ ∀ i, i < j → s[i]? ≠ some c
  | [], c, j, hj => by simp [strchrIdx] at hj
  | a :: t, c, j, hj => by
      by_cases h : a = c
      · have hj0 : j = 0 := by simpa [strchrIdx, h] using hj.symm
        subst hj0
        exact ⟨by simp, by simp [h], fun i hi => absurd hi (by omega)⟩
      · simp only [strchrIdx, if_neg h, Option.map_eq_some'] at hj
        obtain ⟨j', hj', rfl⟩ := hj
        obtain ⟨ih1, ih2, ih3⟩ := strchrIdx_some t c j' hj'
        refine ⟨by simpa using ih1, by simpa using ih2, ?_⟩
        intro i hi
        match i with
        | 0 => simpa using h
        | i + 1 => simpa using ih3 i (by omega)

theorem take_append_left (pre x : List Char) (n : Nat) (h : n ≤ pre.length) :
    (pre ++ x).take n = pre.take n := by
  rw [List.take_append_eq_append_take, Nat.sub_eq_zero_of_le h]
  simp

theorem ne_of_take_ne (n : Nat) {l₁ l₂ : List Char} (h : l₁.take n ≠ l₂.take n) :
    l₁ ≠ l₂ :=
  fun he => h (he ▸ rfl)

theorem snprintf_take (pre z : List Char) (n : Nat) (hn : n ≤ 4095) (h : n ≤ pre.length) :
    (snprintf4096 (pre ++ z)).take n = pre.take n := by
  rw [snprintf4096, List.take_take, Nat.min_eq_left hn, take_append_left pre z n h]

theorem append3_take (a v z : List Char) (h : 3 ≤ a.length) :
    ((a ++ v) ++ z).take 3 = a.take 3 := by
  rw [take_append_left _ _ _ (by simp only [List.length_append]; omega),
    take_append_left _ _ _ h]

theorem resDoc_ne_errDoc (v m : List Char) :
    (toL "\x7b\"result\":" ++ v) ++ toL "\x7d" ≠ (toL "\x7b\"error\":" ++ m) ++ toL "\x7d" := by
  apply ne_of_take_ne 3
  rw [append3_take _ _ _ (by decide), append3_take _ _ _ (by decide)]
  decide

/-! ## Claim theorems -/

/-- C9: `evaluateQualifier` is deterministic: the returned document depends
only on the operation name and the input document, not on the time used to
seed the generator nor on the `random_initialized`/seed state, so two
invocations on the same arguments are byte-identical. -/
theorem c9_deterministic (now₁ now₂ : Nat) (st₁ st₂ : PluginState)
    (qualifier input_json : List Char) :
    (aro_plugin_qualifier now₁ st₁ qualifier input_json).1
      = (aro_plugin_qualifier now₂ st₂ qualifier input_json).1 := rfl

/-- C1 (code bug): on the well-formed non-empty array `[[1,2]]` the `last`
operation returns `2`, while the forward `splitTopLevel` scan yields the
single element `[1,2]`: the backward scan strips every trailing `]`,
including the nested element's own closing bracket. -/
theorem c1_last_backward_divergence :
    evalQualifier (toL "last") (toL "\x7b\"type\":\"List\",\"value\":[[1,2]]\x7d")
        = toL "\x7b\"result\":2\x7d"
      ∧ splitTopLevel (toL "[[1,2]]") = [toL "[1,2]"] := by
  constructor <;> decide

/-- C10: when the `type` field extracts to "List" but the `value` field is
absent or not an array (`extract_json_array` returns none), the `size`
operation returns the result document `0`, not an error document:
`count_array_elements` maps a missing array to the count 0. -/
theorem c10_size_missing_array (inp : List Char)
    (htype : extract_json_string inp (toL "type") = some (toL "List"))
    (harr : extract_json_array inp (toL "value") = none) :
    evalQualifier (toL "size") inp = toL "\x7b\"result\":0\x7d" := by
  show aroOutput (toL "size") inp = _
  rw [aroOutput, if_neg (by decide), if_neg (by decide), if_pos rfl, if_pos htype, harr]
  decide

/-- Witness for C10 at a concrete document whose value is not an array. -/
theorem c10_size_missing_array_witness :
    evalQualifier (toL "size") (toL "\x7b\"type\":\"List\",\"value\":5\x7d")
      = toL "\x7b\"result\":0\x7d" :=
  c10_size_missing_array _ (by decide) (by decide)

/-- C2 counterexample: in `{"value":["]"]}` the `]` inside the quoted
string closes the bracket scan, so the returned span is `["]` and not the
quote-aware span `["]"]`. -/
theorem c2_quotes_cex :
    extract_json_array (toL "\x7b\"value\":[\"]\"]\x7d") (toL "value") = some (toL "[\"]")
      ∧ toL "[\"]" ≠ toL "[\"]\"]" := by
  exact ⟨by decide, by decide⟩

/-- Shared characterisation of `extract_json_array` when the located value
starts with `[`. -/
theorem extract_json_array_spec (json key t : List Char)
    (hf : find_json_value json key = some ('[' :: t)) :
    ∃ m, m ≤ t.length
      ∧ extract_json_array json key = some ('[' :: t.take m)
      ∧ (∀ j, j < m → 0 < 1 + bdiff (t.take j))
      ∧ (1 + bdiff (t.take m) = 0 ∨ m = t.length) := by
  obtain ⟨h1, h2, h3⟩ := scanArr_spec t 1 one_pos
  refine ⟨scanArr t 1, h1, ?_, fun j hj => h2 j hj, h3⟩
  simp only [extract_json_array, hf]
  rw [if_neg (by simp)]
  have hd : ('[' :: t).drop 1 = t := rfl
  have ht : ('[' :: t).take (1 + scanArr t 1) = '[' :: t.take (scanArr t 1) := by
    rw [add_comm, List.take_succ_cons]
  rw [hd, ht]

/-- C2 (amended): the span returned by `extract_json_array` runs from the
opening `[` to the first position where the signed count of all brackets
(inside or outside quoted strings) returns to zero, or to the end of the
input when it never does. -/
theorem c2_array_span_all_brackets (json key t : List Char)
    (hf : find_json_value json key = some ('[' :: t)) :
    ∃ m, m ≤ t.length
      ∧ extract_json_array json key = some ('[' :: t.take m)
      ∧ (∀ j, j < m → 0 < 1 + bdiff (t.take j))
      ∧ (1 + bdiff (t.take m) = 0 ∨ m = t.length) :=
  extract_json_array_spec json key t hf

/-- Witness for C2 at the counterexample document: the first
all-brackets balance point of `"]"]}` is index 2, giving the span `["]`. -/
theorem c2_array_span_all_brackets_witness :
    ∃ m, m ≤ (toL "\"]\"]\x7d").length
      ∧ extract_json_array (toL "\x7b\"value\":[\"]\"]\x7d") (toL "value")
          = some ('[' :: (toL "\"]\"]\x7d").take m)
      ∧ (∀ j, j < m → 0 < 1 + bdiff ((toL "\"]\"]\x7d").take j))
      ∧ (1 + bdiff ((toL "\"]\"]\x7d").take m) = 0 ∨ m = (toL "\"]\"]\x7d").length) :=
  c2_array_span_all_brackets _ _ _ (by decide)

/-- C3 counterexample: `{"value":[1,2}` has an unterminated array, yet the
scanner returns the truncated span `[1,2}` instead of reporting an error. -/
theorem c3_unbalanced_cex :
    extract_json_array (toL "\x7b\"value\":[1,2\x7d") (toL "value") = some (toL "[1,2\x7d")
      ∧ extract_json_array (toL "\x7b\"value\":[1,2\x7d") (toL "value") ≠ none := by
  exact ⟨by decide, by decide⟩

/-- C3 (amended): when the located value starts with `[` and the bracket
depth never returns to zero, `extract_json_array` returns the best-effort
span running to the end of the input, never `none`. -/
theorem c3_unbalanced_returns_rest (json key t : List Char)
    (hf : find_json_value json key = some ('[' :: t))
    (hnb : ∀ j, j ≤ t.length → 1 + bdiff (t.take j) ≠ 0) :
    extract_json_array json key = some ('[' :: t)
      ∧ extract_json_array json key ≠ none := by
  obtain ⟨m, h1, h2, h3, h4⟩ := extract_json_array_spec json key t hf
  have hm : m = t.length := by
    rcases h4 with h0 | hl
    · exact absurd h0 (hnb m h1)
    · exact hl
  rw [hm, List.take_length] at h2
  exact ⟨h2, by rw [h2]; simp⟩

/-- Witness for C3 at a document whose array never closes. -/
theorem c3_unbalanced_returns_rest_witness :
    extract_json_array (toL "\x7b\"value\":[1,2") (toL "value") = some ('[' :: toL "1,2")
      ∧ extract_json_array (toL "\x7b\"value\":[1,2") (toL "value") ≠ none :=
  c3_unbalanced_returns_rest _ _ _ (by decide) (by decide)

/-- C7 counterexample: in `{"value":"a\"b"}` the backslash-escaped quote
terminates the scan, so the extracted content is `a\` and not the
content `a\"b` running to the next unescaped quote. -/
theorem c7_escaped_quote_cex :
    extract_json_string (toL "\x7b\"value\":\"a\\\"b\"\x7d") (toL "value") = some (toL "a\\")
      ∧ toL "a\\" ≠ toL "a\\\"b" := by
  exact ⟨by decide, by decide⟩

/-- C7 (amended): when the located value starts with `"`, the extracted
content runs strictly to the first following `"` character, escaped or not;
`none` is returned when the value is not a quoted string or no further `"`
exists before the end of the input. -/
theorem c7_string_extraction (json key : List Char) :
    (∀ v, find_json_value json key = some v → v.head? ≠ some '"' →
        extract_json_string json key = none)
      ∧ (∀ t, find_json_value json key = some ('"' :: t) →
          ((∀ x ∈ t, x ≠ '"') → extract_json_string json key = none)
          ∧ (∀ j, j < t.length → t[j]? = some '"' →
              (∀ i, i < j → t[i]? ≠ some '"') →
              extract_json_string json key = some (t.take j))) := by
  constructor
  · intro v hf hv
    simp only [extract_json_string, hf]
    rw [if_pos hv]
  · intro t hf
    constructor
    · intro hnoq
      simp only [extract_json_string, hf]
      rw [if_neg (by simp)]
      cases hidx : strchrIdx (('"' :: t).drop 1) '"' with
      | none => rfl
      | some j =>
          obtain ⟨hj1, hj2, -⟩ := strchrIdx_some _ _ _ hidx
          have hmem : '"' ∈ t := by
            rw [List.mem_iff_getElem?]
            exact ⟨j, by simpa using hj2⟩
          exact absurd rfl (hnoq '"' hmem)
    · intro j hj hjq hfirst
      simp only [extract_json_string, hf]
      rw [if_neg (by simp)]
      cases hidx : strchrIdx (('"' :: t).drop 1) '"' with
      | none =>
          have hmem : '"' ∈ t := List.mem_iff_getElem?.mpr ⟨j, hjq⟩
          exact absurd rfl (strchrIdx_none _ _ hidx '"' hmem)
      | some j' =>
          obtain ⟨h1, h2, h3⟩ := strchrIdx_some _ _ _ hidx
          have hjj : j' = j := by
            rcases lt_trichotomy j' j with hlt | heq | hgt
            · exact absurd (by simpa using h2) (hfirst j' hlt)
            · exact heq
            · exact absurd hjq (by simpa using h3 j hgt)
          subst hjj
          simp

/-- Witness for C7 at a concrete document with a plain string value. -/
theorem c7_string_extraction_witness :
    extract_json_string (toL "\x7b\"value\":\"hi\"\x7d") (toL "value")
      = some ((toL "hi\"\x7d").take 2) :=
  ((c7_string_extraction (toL "\x7b\"value\":\"hi\"\x7d") (toL "value")).2
    (toL "hi\"\x7d") (by decide)).2 2 (by decide) (by decide) (by decide)

theorem snprintf_res_ne (e err : List Char) (herr : err.take 3 = toL "\x7b\"e") :
    snprintf4096 ((toL "\x7b\"result\":" ++ e) ++ toL "\x7d") ≠ err := by
  apply ne_of_take_ne 3
  rw [snprintf_take _ _ 3 (by norm_num)
      (by
        simp only [List.length_append]
        have : (toL "\x7b\"result\":").length = 10 := by decide
        omega),
    take_append_left _ _ _ (by decide), herr]
  decide

/-- C6 counterexample: the whitespace-only array `[ ]` has no non-whitespace
content, yet `first` does not return the required error document; it
produces the degenerate result document `{"result":}`. -/
theorem c6_ws_empty_cex :
    evalQualifier (toL "first") (toL "\x7b\"type\":\"List\",\"value\":[ ]\x7d")
        = toL "\x7b\"result\":\x7d"
      ∧ toL "\x7b\"result\":\x7d"
          ≠ toL "\x7b\"error\":\"first requires a non-empty list\"\x7d" := by
  exact ⟨by decide, by decide⟩

/-- C6 (amended): `first` (resp. `last`) returns exactly the error document
`{"error":"first requires a non-empty list"}` when the `value` array is
absent, not an array, or its extracted text is at most two bytes (i.e. the
literal `[]`); whenever the extracted text is longer than two bytes —
including whitespace-only arrays such as `[ ]` — a result document is
returned and never that error. -/
theorem c6_first_error_conditions (inp : List Char) :
    (extract_json_array inp (toL "value") = none →
        evalQualifier (toL "first") inp
            = toL "\x7b\"error\":\"first requires a non-empty list\"\x7d"
          ∧ evalQualifier (toL "last") inp
            = toL "\x7b\"error\":\"last requires a non-empty list\"\x7d")
      ∧ (∀ a, extract_json_array inp (toL "value") = some a → a.length ≤ 2 →
          evalQualifier (toL "first") inp
              = toL "\x7b\"error\":\"first requires a non-empty list\"\x7d"
            ∧ evalQualifier (toL "last") inp
              = toL "\x7b\"error\":\"last requires a non-empty list\"\x7d")
      ∧ (∀ a, extract_json_array inp (toL "value") = some a → 2 < a.length →
          (∃ e, evalQualifier (toL "first") inp
              = snprintf4096 ((toL "\x7b\"result\":" ++ e) ++ toL "\x7d"))
            ∧ evalQualifier (toL "first") inp
              ≠ toL "\x7b\"error\":\"first requires a non-empty list\"\x7d"
            ∧ (∃ e, evalQualifier (toL "last") inp
                = snprintf4096 ((toL "\x7b\"result\":" ++ e) ++ toL "\x7d"))
            ∧ evalQualifier (toL "last") inp
              ≠ toL "\x7b\"error\":\"last requires a non-empty list\"\x7d") := by
  have hfe : evalQualifier (toL "first") inp
      = (match extract_json_array inp (toL "value") with
        | none => snprintf4096 (toL "\x7b\"error\":\"first requires a non-empty list\"\x7d")
        | some a =>
          if a.length ≤ 2 then
            snprintf4096 (toL "\x7b\"error\":\"first requires a non-empty list\"\x7d")
          else snprintf4096 (toL "\x7b\"result\":" ++ firstElem a ++ toL "\x7d")) := by
    show aroOutput (toL "first") inp = _
    rw [aroOutput, if_pos rfl]
  have hle : evalQualifier (toL "last") inp
      = (match extract_json_array inp (toL "value") with
        | none => snprintf4096 (toL "\x7b\"error\":\"last requires a non-empty list\"\x7d")
        | some a =>
          if a.length ≤ 2 then
            snprintf4096 (toL "\x7b\"error\":\"last requires a non-empty list\"\x7d")
          else snprintf4096 (toL "\x7b\"result\":" ++ lastElem a ++ toL "\x7d")) := by
    show aroOutput (toL "last") inp = _
    rw [aroOutput, if_neg (by decide), if_pos rfl]
  refine ⟨?_, ?_, ?_⟩
  · intro hnone
    rw [hfe, hle, hnone]
    exact ⟨by decide, by decide⟩
  · intro a ha hlen
    rw [hfe, hle, ha]
    simp only [if_pos hlen]
    exact ⟨by decide, by decide⟩
  · intro a ha hlen
    rw [hfe, hle, ha]
    simp only [if_neg (by omega : ¬a.length ≤ 2)]
    exact ⟨⟨firstElem a, rfl⟩, snprintf_res_ne _ _ (by decide),
      ⟨lastElem a, rfl⟩, snprintf_res_ne _ _ (by decide)⟩

/-- Witness for C6 at the literal empty array `[]` and at `[1]`. -/
theorem c6_first_error_conditions_witness :
    evalQualifier (toL "first") (toL "\x7b\"type\":\"List\",\"value\":[]\x7d")
        = toL "\x7b\"error\":\"first requires a non-empty list\"\x7d"
      ∧ evalQualifier (toL "first") (toL "\x7b\"type\":\"List\",\"value\":[1]\x7d")
        ≠ toL "\x7b\"error\":\"first requires a non-empty list\"\x7d" :=
  ⟨((c6_first_error_conditions (toL "\x7b\"type\":\"List\",\"value\":[]\x7d")).2.1
      (toL "[]") (by decide) (by decide)).1,
    ((c6_first_error_conditions (toL "\x7b\"type\":\"List\",\"value\":[1]\x7d")).2.2
      (toL "[1]") (by decide) (by decide)).2.1⟩

/-- C4 counterexample: `["a\\","b,c"]` is a well-formed two-element array,
but the forward scan treats the closing quote of `"a\\"` as escaped, goes
out of sync, and places the element boundary at the comma inside the
quoted string `"b,c"`: the split is not the two elements, and `first`
returns the broken span `"a\\","b`. -/
theorem c4_split_inside_string_cex :
    splitTopLevel (toL "[\"a\\\\\",\"b,c\"]") = [toL "\"a\\\\\",\"b", toL "c\""]
      ∧ [toL "\"a\\\\\",\"b", toL "c\""] ≠ [toL "\"a\\\\\"", toL "\"b,c\""]
      ∧ evalQualifier (toL "first")
          (toL "\x7b\"type\":\"List\",\"value\":[\"a\\\\\",\"b,c\"]\x7d")
        = toL "\x7b\"result\":\"a\\\\\",\"b\x7d" := by
  exact ⟨by decide, by decide, by decide⟩

/-- C4 (amended): for arrays rendered from well-formed elements whose
quoted strings contain no escaped backslash (grammar `WfSeq false`),
`splitTopLevel` returns exactly the (trimmed) elements, so no boundary
falls inside a nested array/object or inside a quoted string — including
strings with escaped quotes and strings with commas; and on the scenario
input the `size` operation returns `{"result":2}`. -/
theorem c4_no_split_inside_elements (elems : List (List Char)) (hne : elems ≠ [])
    (h : ∀ e ∈ elems, WfSeq false e) (hws : ∀ e ∈ elems, e.all isWs = false) :
    splitTopLevel (renderArr elems) = elems.map trimWs
      ∧ evalQualifier (toL "size")
          (toL "\x7b\"type\":\"List\",\"value\":[\"a,b\",\"c\"]\x7d")
        = toL "\x7b\"result\":2\x7d" :=
  ⟨splitTopLevel_renderArr elems hne h hws, by decide⟩

theorem wfseq_quoted_ab : WfSeq false (toL "\"a,b\"") :=
  WfSeq.str ['a', ',', 'b'] []
    (OkB.plain 'a' _ (by decide) (by decide)
      (OkB.plain ',' _ (by decide) (by decide)
        (OkB.plain 'b' _ (by decide) (by decide) OkB.nil)))
    WfSeq.nil

theorem wfseq_quoted_c : WfSeq false (toL "\"c\"") :=
  WfSeq.str ['c'] [] (OkB.plain 'c' _ (by decide) (by decide) OkB.nil) WfSeq.nil

/-- Witness for C4 at the scenario array `["a,b","c"]`. -/
theorem c4_no_split_inside_elements_witness :
    splitTopLevel (toL "[\"a,b\",\"c\"]") = [toL "\"a,b\"", toL "\"c\""] := by
  have h := (c4_no_split_inside_elements [toL "\"a,b\"", toL "\"c\""] (by simp)
    (by
      intro e he
      simp only [List.mem_cons, List.not_mem_nil, or_false] at he
      rcases he with rfl | rfl
      · exact wfseq_quoted_ab
      · exact wfseq_quoted_c)
    (by decide)).1
  rw [show renderArr [toL "\"a,b\"", toL "\"c\""] = toL "[\"a,b\",\"c\"]" from by decide,
    show [toL "\"a,b\"", toL "\"c\""].map trimWs = [toL "\"a,b\"", toL "\"c\""] from by decide]
    at h
  exact h

/-- C5 counterexample: the whitespace-only array `[ ]` has no
non-whitespace content between the brackets, so `splitTopLevel` yields the
empty sequence, but `count` returns 1 (its emptiness test is the byte
length, not the content). -/
theorem c5_ws_empty_count_cex :
    count_array_elements (some (toL "[ ]")) = 1
      ∧ splitTopLevel (toL "[ ]") = []
      ∧ evalQualifier (toL "size") (toL "\x7b\"type\":\"List\",\"value\":[ ]\x7d")
        = toL "\x7b\"result\":1\x7d" := by
  exact ⟨by decide, by decide, by decide⟩

/-- C5 (amended): for arrays rendered from well-formed, non-whitespace-only
elements, `count` equals the number of depth-0 commas plus one, which is
the length of `splitTopLevel`; and `count` is zero exactly on the
two-byte literal `[]` (not on whitespace-only arrays). -/
theorem c5_count_matches_split (elems : List (List Char)) (hne : elems ≠ [])
    (h : ∀ e ∈ elems, WfSeq false e) (hws : ∀ e ∈ elems, e.all isWs = false) :
    count_array_elements (some (renderArr elems))
        = (splitTopLevel (renderArr elems)).length
      ∧ count_array_elements (some (toL "[]")) = 0 := by
  refine ⟨?_, by decide⟩
  rw [count_renderArr elems hne h hws, splitTopLevel_renderArr elems hne h hws,
    List.length_map]

theorem wfseq_digit_one : WfSeq false (toL "1") :=
  WfSeq.ch '1' [] (by decide) WfSeq.nil

theorem wfseq_digit_two : WfSeq false (toL "2") :=
  WfSeq.ch '2' [] (by decide) WfSeq.nil

/-- Witness for C5 at the array `[1,2]`. -/
theorem c5_count_matches_split_witness :
    count_array_elements (some (toL "[1,2]")) = (splitTopLevel (toL "[1,2]")).length := by
  have h := (c5_count_matches_split [toL "1", toL "2"] (by simp)
    (by
      intro e he
      simp only [List.mem_cons, List.not_mem_nil, or_false] at he
      rcases he with rfl | rfl
      · exact wfseq_digit_one
      · exact wfseq_digit_two)
    (by decide)).1
  rwa [show renderArr [toL "1", toL "2"] = toL "[1,2]" from by decide] at h

theorem resDoc_choice (v doc : List Char)
    (h : doc = (toL "\x7b\"result\":" ++ v) ++ toL "\x7d") :
    ((∃ w, doc = (toL "\x7b\"result\":" ++ w) ++ toL "\x7d")
        ∧ ¬∃ m, doc = (toL "\x7b\"error\":" ++ m) ++ toL "\x7d")
      ∨ ((∃ m, doc = (toL "\x7b\"error\":" ++ m) ++ toL "\x7d")
        ∧ ¬∃ w, doc = (toL "\x7b\"result\":" ++ w) ++ toL "\x7d") :=
  Or.inl ⟨⟨v, h⟩, by
    rintro ⟨m, hm⟩
    exact resDoc_ne_errDoc v m (h.symm.trans hm)⟩

theorem errDoc_choice (m doc : List Char)
    (h : doc = (toL "\x7b\"error\":" ++ m) ++ toL "\x7d") :
    ((∃ w, doc = (toL "\x7b\"result\":" ++ w) ++ toL "\x7d")
        ∧ ¬∃ n, doc = (toL "\x7b\"error\":" ++ n) ++ toL "\x7d")
      ∨ ((∃ n, doc = (toL "\x7b\"error\":" ++ n) ++ toL "\x7d")
        ∧ ¬∃ w, doc = (toL "\x7b\"result\":" ++ w) ++ toL "\x7d") :=
  Or.inr ⟨⟨m, h⟩, by
    rintro ⟨w, hw⟩
    exact resDoc_ne_errDoc w m (hw.symm.trans h)⟩

/-- C8 (amended): every returned document is the 4095-byte `snprintf`
truncation of a textual JSON object that contains exactly one of the keys
`result` or `error` — never both, never neither.  (Whenever the formatted
object fits within the buffer, the output is therefore itself such an
object; the evaluator never mutates the input, which is passed by value in
this model.) -/
theorem c8_output_single_key (qualifier input_json : List Char) :
    ∃ doc, evalQualifier qualifier input_json = snprintf4096 doc
      ∧ (((∃ w, doc = (toL "\x7b\"result\":" ++ w) ++ toL "\x7d")
            ∧ ¬∃ m, doc = (toL "\x7b\"error\":" ++ m) ++ toL "\x7d")
        ∨ ((∃ m, doc = (toL "\x7b\"error\":" ++ m) ++ toL "\x7d")
            ∧ ¬∃ w, doc = (toL "\x7b\"result\":" ++ w) ++ toL "\x7d")) := by
  show ∃ doc, aroOutput qualifier input_json = snprintf4096 doc ∧ _
  rw [aroOutput]
  by_cases h1 : qualifier = toL "first"
  · rw [if_pos h1]
    split
    · exact ⟨_, rfl, errDoc_choice (toL "\"first requires a non-empty list\"") _ (by decide)⟩
    · split
      · exact ⟨_, rfl, errDoc_choice (toL "\"first requires a non-empty list\"") _ (by decide)⟩
      · exact ⟨_, rfl, resDoc_choice _ _ rfl⟩
  · rw [if_neg h1]
    by_cases h2 : qualifier = toL "last"
    · rw [if_pos h2]
      split
      · exact ⟨_, rfl, errDoc_choice (toL "\"last requires a non-empty list\"") _ (by decide)⟩
      · split
        · exact ⟨_, rfl, errDoc_choice (toL "\"last requires a non-empty list\"") _ (by decide)⟩
        · exact ⟨_, rfl, resDoc_choice _ _ rfl⟩
    · rw [if_neg h2]
      by_cases h3 : qualifier = toL "size"
      · rw [if_pos h3]
        by_cases h4 : extract_json_string input_json (toL "type") = some (toL "List")
        · rw [if_pos h4]
          exact ⟨_, rfl, resDoc_choice _ _ rfl⟩
        · rw [if_neg h4]
          by_cases h5 : extract_json_string input_json (toL "type") = some (toL "String")
          · rw [if_pos h5]
            exact ⟨_, rfl, resDoc_choice _ _ rfl⟩
          · rw [if_neg h5]
            exact ⟨_, rfl, errDoc_choice (toL "\"size requires List or String\"") _ (by decide)⟩
      · rw [if_neg h3]
        refine ⟨(toL "\x7b\"error\":\"Unknown qualifier: " ++ qualifier) ++ toL "\"\x7d",
          by rw [List.append_assoc], errDoc_choice
            (toL "\"Unknown qualifier: " ++ (qualifier ++ toL "\"")) _ ?_⟩
        rw [show toL "\x7b\"error\":\"Unknown qualifier: "
            = toL "\x7b\"error\":" ++ toL "\"Unknown qualifier: " from by decide,
          show toL "\"\x7d" = toL "\"" ++ toL "\x7d" from by decide]
        simp [List.append_assoc]

/-- C8 counterexample: a 5000-byte qualifier name overflows the 4096-byte
result buffer; `snprintf` truncates the error document, the closing brace
is lost, and the output is no longer a JSON object of either shape. -/
theorem c8_truncation_cex :
    (evalQualifier (List.replicate 5000 'x') (toL "\x7b\x7d")).getLast? = some 'x'
      ∧ (¬∃ w, evalQualifier (List.replicate 5000 'x') (toL "\x7b\x7d")
            = (toL "\x7b\"result\":" ++ w) ++ toL "\x7d")
      ∧ (¬∃ m, evalQualifier (List.replicate 5000 'x') (toL "\x7b\x7d")
            = (toL "\x7b\"error\":" ++ m) ++ toL "\x7d") := by
  have hne : ∀ (s : List Char), s.length ≠ 5000 → List.replicate 5000 'x' ≠ s := by
    intro s hs h
    have := congrArg List.length h
    simp only [List.length_replicate] at this
    exact hs this.symm
  have hout : evalQualifier (List.replicate 5000 'x') (toL "\x7b\x7d")
      = toL "\x7b\"error\":\"Unknown qualifier: " ++ List.replicate 4066 'x' := by
    show aroOutput (List.replicate 5000 'x') (toL "\x7b\x7d") = _
    rw [aroOutput, if_neg (hne _ (by decide)), if_neg (hne _ (by decide)),
      if_neg (hne _ (by decide))]
    rw [snprintf4096, List.take_append_eq_append_take, List.take_append_eq_append_take]
    have hA : (toL "\x7b\"error\":\"Unknown qualifier: ").length = 29 := by decide
    rw [List.take_of_length_le (by rw [hA]; omega)]
    simp only [hA, List.length_append, List.length_replicate]
    norm_num [List.take_replicate]
  have hlast : (toL "\x7b\"error\":\"Unknown qualifier: "
      ++ List.replicate 4066 'x').getLast? = some 'x' := by
    rw [show (4066 : Nat) = 4065 + 1 from rfl, List.replicate_succ',
      ← List.append_assoc, List.getLast?_concat]
  have hclose : ∀ z : List Char, (z ++ toL "\x7d").getLast? = some '}' := by
    intro z
    rw [show toL "\x7d" = ['}'] from rfl, List.getLast?_concat]
  refine ⟨by rw [hout]; exact hlast, ?_, ?_⟩
  · rintro ⟨w, hw⟩
    have heq := hw.symm.trans hout
    rw [← heq, hclose] at hlast
    exact absurd hlast (by decide)
  · rintro ⟨m, hm⟩
    have heq := hm.symm.trans hout
    rw [← heq, hclose] at hlast
    exact absurd hlast (by decide)

/-- Witness for C8 at a concrete unknown qualifier. -/
theorem c8_output_single_key_witness :
    ∃ doc, evalQualifier (toL "bogus") (toL "\x7b\x7d") = snprintf4096 doc
      ∧ (((∃ w, doc = (toL "\x7b\"result\":" ++ w) ++ toL "\x7d")
            ∧ ¬∃ m, doc = (toL "\x7b\"error\":" ++ m) ++ toL "\x7d")
        ∨ ((∃ m, doc = (toL "\x7b\"error\":" ++ m) ++ toL "\x7d")
            ∧ ¬∃ w, doc = (toL "\x7b\"result\":" ++ w) ++ toL "\x7d")) :=
  c8_output_single_key (toL "bogus") (toL "\x7b\x7d")
